import Mathlib

/-!
Verification development for the text-buffer core of the `sim` terminal editor.

The `Document` operations are translated from `src/document.rs`.  The `Row`,
`FileType` and highlighter components are consumed by `document.rs` but their
source files are not part of the repository snapshot; they are modelled from
the specification (spec.md sections 3, 4.1, 4.2, 6, 9) and each such
definition is marked `Modelled from the spec`.

Text is represented as `List Char` (the spec's "codepoint-equivalent grapheme
the system treats as atomic"); machine integers of the source (`usize`) are
`Nat`, with Rust's `saturating_sub`/`saturating_add` mapped to `Nat`
subtraction/addition.
-/

/-- Rust `Vec::insert self i a`: element inserted so that it ends up at index
`i`, shifting the suffix right (callers in `document.rs` only use it with
`i ≤ length`). -/
def vecInsert (l : List α) (i : Nat) (a : α) : List α :=
  l.take i ++ a :: l.drop i

/-- Rust `Vec::remove self i`: removes the element at index `i`, shifting the
suffix left (callers in `document.rs` only use it with `i < length`). -/
def vecRemove (l : List α) (i : Nat) : List α :=
  l.take i ++ l.drop (i + 1)

/-- One segment-split of a character list on the newline character, keeping
empty segments (helper for `rustLines`). -/
def splitOnNl : List Char → List (List Char)
  | [] => [[]]
  | c :: rest =>
    if c = '\n' then [] :: splitOnNl rest
    else
      match splitOnNl rest with
      | [] => [[c]]
      | l :: ls => (c :: l) :: ls

/-- Rust `str::lines` strips a carriage return standing immediately before a
line-terminating newline (`\r\n` is one terminator); a `\r` not followed by a
newline stays part of the line. -/
def stripCr (l : List Char) : List Char :=
  if l.getLast? = some '\r' then l.dropLast else l

/-- Turns the segments produced by `splitOnNl` into Rust `str::lines` output:
every segment but the last was terminated by a `\n` and has a `\r` directly
before that terminator stripped; the last segment is the unterminated
remainder, kept as-is unless empty (a trailing final newline produces no
extra empty trailing line). -/
def linesOfSegs : List (List Char) → List (List Char)
  | [] => []
  | [s] => if s.isEmpty then [] else [s]
  | s :: s2 :: rest => stripCr s :: linesOfSegs (s2 :: rest)

/-- Rust `str::lines` (used by `Document::open`, document.rs line 24): split
on newlines, a `\r` immediately before a `\n` is part of the terminator and
stripped, and a trailing final newline produces no extra empty trailing
line. -/
def rustLines (cs : List Char) : List (List Char) :=
  linesOfSegs (splitOnNl cs)

/-- The byte stream `Document::save` writes: every row's text followed by one
newline. -/
def joinNl : List (List Char) → List Char
  | [] => []
  | l :: ls => l ++ '\n' :: joinNl ls

/-- Per-character classification tags (the highlighter's output alphabet);
`normal` is the "no highlighting" tag, `matchTag` the search-match overlay
tag. -/
inductive Highlight
  | normal | number | str | comment | mlComment | keyword1 | keyword2 | matchTag
deriving DecidableEq

/-- Search direction selector (from `editor.rs`). -/
inductive SearchDirection
  | Forward
  | Backward
deriving DecidableEq

/-- A (column, row) addressing value (from `editor.rs`). -/
structure Position where
  x : Nat
  y : Nat
deriving DecidableEq

/-- Modelled from the spec (section 4.2): a highlighting rule set enumerates
the line-comment marker, the multi-line-comment open/close markers, the quote
characters, whether numeric literals are highlighted, and the primary and
secondary keyword sets.  An empty marker list means the corresponding feature
is disabled. -/
structure HighlightingOptions where
  numbers : Bool
  line_comment : List Char
  ml_open : List Char
  ml_close : List Char
  quotes : List Char
  primary_keywords : List (List Char)
  secondary_keywords : List (List Char)
deriving DecidableEq

/-- Characters that can make up an identifier/keyword word. -/
def isWordChar (c : Char) : Bool :=
  c.isAlphanum || c = '_'

/-- First index of `cs` at which `pat` occurs as a contiguous sublist. -/
def findSub (pat cs : List Char) : Option Nat :=
  ((List.range (cs.length + 1)).filter (fun i => pat.isPrefixOf (cs.drop i))).head?

/-- Modelled from the spec (section 4.2): one step of the left-to-right
scanner.  Given the remaining characters and whether the scanner is inside a
multi-line comment, it returns the classification tag of the next maximal
chunk, the chunk's length, and whether the scanner is inside a multi-line
comment after the chunk.  Scanner-state precedence is as the spec requires:
inside a comment or string, other markers are inert until the close marker;
an unterminated string classifies to end of row without carrying state. -/
def hlStep (o : HighlightingOptions) (cs : List Char) (inML : Bool) :
    Highlight × Nat × Bool :=
  if inML then
    match findSub o.ml_close cs with
    | some i => (.mlComment, i + o.ml_close.length, false)
    | none => (.mlComment, cs.length, true)
  else if !o.ml_open.isEmpty && !o.ml_close.isEmpty && o.ml_open.isPrefixOf cs then
    match findSub o.ml_close (cs.drop o.ml_open.length) with
    | some i => (.mlComment, o.ml_open.length + i + o.ml_close.length, false)
    | none => (.mlComment, cs.length, true)
  else if !o.line_comment.isEmpty && o.line_comment.isPrefixOf cs then
    (.comment, cs.length, false)
  else
    match cs with
    | [] => (.normal, 0, false)
    | c :: rest =>
      if o.quotes.contains c then
        match rest.findIdx? (fun d => d = c) with
        | some j => (.str, j + 2, false)
        | none => (.str, cs.length, false)
      else if o.numbers && c.isDigit then (.number, 1, false)
      else if isWordChar c then
        let w := cs.takeWhile isWordChar
        if o.primary_keywords.contains w then (.keyword1, w.length, false)
        else if o.secondary_keywords.contains w then (.keyword2, w.length, false)
        else (.normal, w.length, false)
      else (.normal, 1, false)

/-- Modelled from the spec (section 4.2): the full left-to-right scan of a
row's characters.  Takes the inherited continuation flag (inside a multi-line
comment), returns one tag per character together with the outgoing
continuation flag (whether the row ends still inside an unterminated
multi-line comment). -/
def hlScanFuel (o : HighlightingOptions) : Nat → List Char → Bool → List Highlight × Bool
  | _, [], inML => ([], inML)
  | 0, _ :: _, inML => ([], inML)
  | fuel + 1, c :: rest, inML =>
    let s := hlStep o (c :: rest) inML
    let t := hlScanFuel o fuel (List.drop (max 1 s.2.1) (c :: rest)) s.2.2
    (List.replicate (max 1 s.2.1) s.1 ++ t.1, t.2)

/-- The scan of a whole row: every step consumes at least one character, so
a fuel of `cs.length` always suffices and the zero-fuel fallback is never
reached. -/
def hlScan (o : HighlightingOptions) (cs : List Char) (inML : Bool) :
    List Highlight × Bool :=
  hlScanFuel o cs.length cs inML

/-- Whether character index `i` of `cs` lies inside some occurrence of the
query `q` (helper for the search-match overlay). -/
def coveredByMatch (q cs : List Char) (i : Nat) : Bool :=
  (List.range (cs.length + 1)).any
    (fun j => q.isPrefixOf (cs.drop j) && decide (j ≤ i) && decide (i < j + q.length))

/-- Modelled from the spec (section 4.2): the transient search overlay — every
occurrence of a non-empty query has its tags overridden to the match tag, as
a second pass after language classification. -/
def applyOverlay (q cs : List Char) (tags : List Highlight) : List Highlight :=
  if q.isEmpty then tags
  else tags.enum.map (fun p => if coveredByMatch q cs p.1 then .matchTag else p.2)

/-- Modelled from the spec (sections 3 and 4.1): a `Row` owns one line's text
(`content`, no embedded newline) and its derived per-character classification
(`hl`, the spec's `highlight` buffer, stale until the next `highlight` call). -/
structure Row where
  content : List Char
  hl : List Highlight
deriving DecidableEq

/-- Rust `Row::default()`: an empty row. -/
def Row.default : Row := ⟨[], []⟩

/-- Modelled from the spec (section 3): a row created from a line of source
text; its highlight buffer starts empty until the first highlight pass. -/
def Row.ofLine (l : List Char) : Row := ⟨l, []⟩

/-- The row's cached character count (spec section 3: always the `content`
length). -/
def Row.len (r : Row) : Nat := r.content.length

/-- Modelled from the spec (section 4.1): `Row::insert` — inserts `c` before
offset `i`; if `i ≥ len` it degrades to append.  The highlight buffer becomes
stale (left unchanged) until the next highlight call. -/
def Row.insert (r : Row) (i : Nat) (c : Char) : Row :=
  { r with content := r.content.take i ++ c :: r.content.drop i }

/-- Modelled from the spec (section 4.1): `Row::delete` — removes the
character at offset `i`; no-op if `i ≥ len`. -/
def Row.delete (r : Row) (i : Nat) : Row :=
  if r.len ≤ i then r
  else { r with content := r.content.take i ++ r.content.drop (i + 1) }

/-- Modelled from the spec (section 4.1): `Row::append` — concatenates the
other row's characters onto the end of this row. -/
def Row.append (r other : Row) : Row :=
  { r with content := r.content ++ other.content }

/-- Modelled from the spec (section 4.1): `Row::split` — truncates this row to
`[0, i)` and returns a new Row owning `[i, len)` (returned as the pair
(truncated row, new row); the new row starts unhighlighted). -/
def Row.split (r : Row) (i : Nat) : Row × Row :=
  ({ r with content := r.content.take i }, Row.ofLine (r.content.drop i))

/-- Modelled from the spec (section 4.1): `Row::find` — Forward returns the
leftmost match offset `≥ fromX`, Backward the rightmost match offset
`≤ fromX`; plain case-sensitive substring scan, none if no match. -/
def Row.find (r : Row) (q : List Char) (fromX : Nat) :
    SearchDirection → Option Nat
  | .Forward =>
    ((List.range (r.len + 1)).filter
      (fun i => decide (fromX ≤ i) && q.isPrefixOf (r.content.drop i))).head?
  | .Backward =>
    ((List.range (r.len + 1)).filter
      (fun i => decide (i ≤ fromX) && q.isPrefixOf (r.content.drop i))).getLast?

/-- Modelled from the spec (sections 4.1 and 4.2): `Row::highlight` —
delegates to the scanner with the inherited continuation flag, overlays the
optional query matches, replaces the row's highlight buffer in place and
returns the outgoing continuation flag. -/
def Row.highlight (r : Row) (o : HighlightingOptions) (word : Option (List Char))
    (start_with_comment : Bool) : Row × Bool :=
  let s := hlScan o r.content start_with_comment
  let tags :=
    match word with
    | none => s.1
    | some q => applyOverlay q r.content s.1
  ({ r with hl := tags }, s.2)

/-- Modelled from the spec (sections 6 and 9): the closed set of language
profiles.  The lookup table itself is external configuration; the spec's
examples require a profile with `/* */` block comments (the Rust profile) and
an unknown extension yields the "no highlighting" default. -/
inductive FileType
  | rust
  | plainText
deriving DecidableEq

/-- Display name of the file type (Rust `FileType::name`). -/
def FileType.name : FileType → List Char
  | .rust => "Rust".toList
  | .plainText => "No filetype".toList

/-- Modelled from the spec (sections 4.2 and 9): the data-driven rule set
carried by each profile. -/
def FileType.highlighting_options : FileType → HighlightingOptions
  | .rust =>
    { numbers := true
      line_comment := "//".toList
      ml_open := "/*".toList
      ml_close := "*/".toList
      quotes := ['"', Char.ofNat 39]
      primary_keywords := ["fn", "let", "if", "else", "mod", "use", "pub", "return"].map String.toList
      secondary_keywords := ["bool", "char", "i32", "u32", "usize", "String"].map String.toList }
  | .plainText =>
    { numbers := false
      line_comment := []
      ml_open := []
      ml_close := []
      quotes := []
      primary_keywords := []
      secondary_keywords := [] }

/-- Modelled from the spec (section 6): `FileType::from` — filename extension
selects the rule set, unknown extension the no-highlighting default. -/
def FileType.ofName (file_name : List Char) : FileType :=
  if ".rs".toList.isSuffixOf file_name then .rust else .plainText

/-- The document state (`src/document.rs` lines 8-14): an ordered row
sequence, the optional file name, the dirty flag and the active highlighting
profile. -/
structure Document where
  rows : List Row
  file_name : Option (List Char)
  dirty : Bool
  file_type : FileType
deriving DecidableEq

/-- `Document::len` (document.rs line 53). -/
def Document.len (d : Document) : Nat := d.rows.length

/-- `Document::is_empty` (document.rs line 48). -/
def Document.is_empty (d : Document) : Bool := d.rows.isEmpty

/-- `Document::row` (document.rs line 43). -/
def Document.row (d : Document) (index : Nat) : Option Row := d.rows.get? index

/-- `Document::is_dirty` (document.rs line 158). -/
def Document.is_dirty (d : Document) : Bool := d.dirty

/-- `Document::insert_newline` (document.rs lines 82-100): out-of-range row is
a no-op; at row `len` an empty row is appended; otherwise the addressed row is
split at the column, both halves are re-highlighted (continuation flag false)
and the new half is inserted right after the addressed row. -/
def Document.insert_newline (d : Document) (p : Position) : Document :=
  if p.y > d.len then d
  else if p.y = d.len then { d with rows := d.rows ++ [Row.default] }
  else
    let current_row := d.rows.getD p.y Row.default
    let sp := current_row.split p.x
    let cur := (sp.1.highlight d.file_type.highlighting_options none false).1
    let new_row := (sp.2.highlight d.file_type.highlighting_options none false).1
    { d with rows := vecInsert (d.rows.set p.y cur) (p.y + 1) new_row }

/-- `Document::insert` (document.rs lines 57-80): out-of-range row
(`y > len`) is a no-op; otherwise the dirty flag is set, a newline character
dispatches to `insert_newline`, `y = len` appends a fresh one-character row,
and otherwise the character is inserted into the addressed row, which is then
re-highlighted with continuation flag false. -/
def Document.insert (d : Document) (p : Position) (c : Char) : Document :=
  if p.y > d.len then d
  else
    let d1 := { d with dirty := true }
    if c = '\n' then d1.insert_newline p
    else if p.y = d1.len then
      let row := ((Row.default.insert 0 c).highlight d1.file_type.highlighting_options none false).1
      { d1 with rows := d1.rows ++ [row] }
    else
      let row := d1.rows.getD p.y Row.default
      { d1 with rows :=
          d1.rows.set p.y ((row.insert p.x c).highlight d1.file_type.highlighting_options none false).1 }

/-- `Document::delete` (document.rs lines 103-129): out-of-range row
(`y ≥ len`) is a no-op; otherwise the dirty flag is set, and either the next
row is merged into the addressed one (cursor at end of the row and a row
follows) or the character at the column is deleted from the addressed row;
the touched row is re-highlighted with continuation flag false. -/
def Document.delete (d : Document) (p : Position) : Document :=
  if p.y ≥ d.len then d
  else
    let d1 := { d with dirty := true }
    let row := d1.rows.getD p.y Row.default
    if p.x = row.len ∧ p.y + 1 < d1.len then
      let next_row := d1.rows.getD (p.y + 1) Row.default
      let rows2 := vecRemove d1.rows (p.y + 1)
      let merged := ((row.append next_row).highlight d1.file_type.highlighting_options none false).1
      { d1 with rows := rows2.set p.y merged }
    else
      { d1 with rows :=
          d1.rows.set p.y ((row.delete p.x).highlight d1.file_type.highlighting_options none false).1 }

/-- The row-building loop of `Document::open` (document.rs lines 23-28): one
row per line, each highlighted with query `None` and continuation flag
`false` (the flag returned by `highlight` is discarded). -/
def openRows (o : HighlightingOptions) : List (List Char) → List Row
  | [] => []
  | l :: ls => ((Row.ofLine l).highlight o none false).1 :: openRows o ls

/-- `Document::open` (document.rs lines 19-36) on the success path of
`fs::read_to_string`: the file's contents are passed as an argument; the
file type is derived from the path, one `Row` is built per line and the
resulting document starts clean. -/
def Document.openDoc (file_name contents : List Char) : Document :=
  let ft := FileType.ofName file_name
  { rows := openRows ft.highlighting_options (rustLines contents)
    file_name := some file_name
    dirty := false
    file_type := ft }

/-- The row loop of `Document::highlight` (document.rs lines 150-155) and of
the claim C1 reading of `open`: each row highlighted in document order, the
continuation flag propagated from each row to the next. -/
def highlightRows (o : HighlightingOptions) (word : Option (List Char)) :
    List Row → Bool → List Row
  | [], _ => []
  | r :: rs, swc =>
    let p := r.highlight o word swc
    p.1 :: highlightRows o word rs p.2

/-- `Document::highlight` (document.rs lines 150-155): full pass over all rows
in order, continuation state propagated, the optional query applied as the
transient match overlay. -/
def Document.highlight (d : Document) (word : Option (List Char)) : Document :=
  { d with rows := highlightRows d.file_type.highlighting_options word d.rows false }

/-- Outcome tag of `Document::save`: `Ok(())` or a propagated `io::Error`. -/
inductive SaveResult
  | ok
  | ioError
deriving DecidableEq

/-- The write loop of `Document::save` (document.rs lines 138-142) with an
injected failure point: `failAt = some k` makes the `k`-th write operation
(counting `File::create` as operation 0; row `i` contributes operations
`1 + 2i` for its text and `2 + 2i` for the newline) fail, modelling the `?`
early return.  Returns the row sequence as left behind (rows highlighted,
continuation propagated, up to the failure point), the characters actually
written, and the outcome. -/
def saveLoop (o : HighlightingOptions) (failAt : Option Nat) :
    List Row → Bool → Nat → List Row × List Char × SaveResult
  | [], _, _ => ([], [], .ok)
  | r :: rs, swc, idx =>
    if failAt = some idx then (r :: rs, [], .ioError)
    else if failAt = some (idx + 1) then (r :: rs, r.content, .ioError)
    else
      let p := r.highlight o none swc
      let rest := saveLoop o failAt rs p.2 (idx + 2)
      (p.1 :: rest.1, r.content ++ '\n' :: rest.2.1, rest.2.2)

/-- Result record of `Document::save`: the document state after the call, the
characters written to the file (`none` when no file was created), and the
returned outcome. -/
structure SaveOutcome where
  doc : Document
  written : Option (List Char)
  result : SaveResult
deriving DecidableEq

/-- `Document::save` (document.rs lines 133-148) with an injected failure
point (`failAt = none` is the all-writes-succeed path): with no file name set
it returns `Ok` without writing; otherwise the file is created (failure point
0), the file type is re-derived from the file name, every row's text plus a
newline is written while re-highlighting the rows in order with the
continuation flag propagated, and only after the whole loop is the dirty flag
cleared — an early write failure leaves the dirty flag (and the partially
updated rows and file type) as they are. -/
def Document.save (d : Document) (failAt : Option Nat) : SaveOutcome :=
  match d.file_name with
  | none => ⟨d, none, .ok⟩
  | some fn =>
    if failAt = some 0 then ⟨d, none, .ioError⟩
    else
      let ft := FileType.ofName fn
      let s := saveLoop ft.highlighting_options failAt d.rows false 1
      ⟨{ d with file_type := ft
              , rows := s.1
              , dirty := if s.2.2 = .ok then false else d.dirty }
      , some s.2.1, s.2.2⟩

/-- The scan loop of `Document::find` (document.rs lines 181-197), with the
iteration count of the Rust `for _ in start..end` range made an explicit fuel
argument: try the row at `y` from column `x`; on failure move to the next row
(Forward: `y + 1` from column 0; Backward: saturating `y - 1` from that row's
last column). -/
def findLoop (rows : List Row) (q : List Char) (dir : SearchDirection) :
    Nat → Nat → Nat → Option Position
  | 0, _, _ => none
  | fuel + 1, x, y =>
    match rows.get? y with
    | none => none
    | some row =>
      match row.find q x dir with
      | some mx => some ⟨mx, y⟩
      | none =>
        match dir with
        | .Forward => findLoop rows q dir fuel 0 (y + 1)
        | .Backward =>
          findLoop rows q dir fuel (((rows.get? (y - 1)).map Row.len).getD 0) (y - 1)

/-- `Document::find` (document.rs lines 164-200): none when the start row is
out of range; otherwise the loop runs `len - y` times (Forward) or `y + 1`
times (Backward) starting at the given position. -/
def Document.find (d : Document) (q : List Char) (p : Position)
    (dir : SearchDirection) : Option Position :=
  if p.y ≥ d.len then none
  else
    let fuel :=
      match dir with
      | .Forward => d.len - p.y
      | .Backward => p.y + 1
    findLoop d.rows q dir fuel p.x p.y

/-- Claim C1's reading of `Document::open` (spec section 4.3): one row per
line, the highlighter run over every row in order with the multi-line-comment
continuation state propagated from each row to the next. -/
def Document.openPropagating (file_name contents : List Char) : Document :=
  let ft := FileType.ofName file_name
  { rows := highlightRows ft.highlighting_options none
      ((rustLines contents).map Row.ofLine) false
    file_name := some file_name
    dirty := false
    file_type := ft }

/-- The amended reading of `Document::open`: one row per line, every row
highlighted independently with continuation flag false (no propagation at
open time). -/
def Document.openRowLocal (file_name contents : List Char) : Document :=
  let ft := FileType.ofName file_name
  { rows := (rustLines contents).map
      (fun l => ((Row.ofLine l).highlight ft.highlighting_options none false).1)
    file_name := some file_name
    dirty := false
    file_type := ft }

/-- The claim C6 span of rows scanned by `Document::find` starting at row
`startY` in a document of `len` rows: Forward scans `startY` up to the last
row, Backward scans `startY` down to row 0. -/
def scanSpan : SearchDirection → Nat → Nat → Nat → Prop
  | .Forward, startY, len, j => startY ≤ j ∧ j < len
  | .Backward, startY, _, j => j ≤ startY

/-- The claim C6 start column for the scan of row `j` when the search starts
at `p`: the start row is scanned from `p.x`, later rows from column 0
(Forward) or from their last column (Backward). -/
def startColumn : SearchDirection → Position → List Row → Nat → Nat
  | .Forward, p, _, j => if j = p.y then p.x else 0
  | .Backward, p, rows, j => if j = p.y then p.x else (rows.getD j Row.default).len

/-- A document operation, for stating claims about operation sequences:
position-addressed insert and delete, and save with an optional injected
write-failure point. -/
inductive Op
  | ins (p : Position) (c : Char)
  | del (p : Position)
  | saveOp (failAt : Option Nat)

/-- Application of one operation to a document (save keeps the resulting
document state). -/
def applyOp (d : Document) : Op → Document
  | .ins p c => d.insert p c
  | .del p => d.delete p
  | .saveOp k => (d.save k).doc

/-- Application of an operation sequence, left to right. -/
def applyOps (d : Document) : List Op → Document
  | [] => d
  | op :: rest => applyOps (applyOp d op) rest

/-- Whether an operation is an in-range mutation call: an insert addressed at
a row index `≤ len(rows)` or a delete addressed at a row index `< len(rows)`
(such calls set the dirty flag even when they change nothing). -/
def opSetsDirty (d : Document) : Op → Bool
  | .ins p _ => decide (p.y ≤ d.len)
  | .del p => decide (p.y < d.len)
  | .saveOp _ => false

/-- Whether an operation is a dirty-clearing save: a save that has a file
name to write to and succeeds. -/
def opClearsDirty (d : Document) : Op → Bool
  | .saveOp k => d.file_name.isSome && decide ((d.save k).result = .ok)
  | _ => false

/-- The amended claim C2 dirty-flag ledger: recompute the dirty flag along an
operation sequence from the in-range-mutation and clearing-save conditions
alone. -/
def dirtyLedger (d : Document) (b : Bool) : List Op → Bool
  | [] => b
  | op :: rest =>
    dirtyLedger (applyOp d op)
      (if opClearsDirty d op then false else b || opSetsDirty d op) rest

/-- A concrete plain-text document with the single row `a`, used by concrete
instantiations below. -/
def exDocA : Document := Document.openDoc "a.txt".toList "a".toList

/-- A concrete plain-text document with rows `ab` and `cd`. -/
def exDocAbCd : Document := Document.openDoc "a.txt".toList "ab\ncd".toList

/-- A concrete empty document (no rows). -/
def exDocEmpty : Document := Document.openDoc "a.txt".toList "".toList

/-- A concrete plain-text document whose single row ends in a carriage
return (obtained by opening a file holding `a\r` with no trailing
newline, which Rust `str::lines` leaves intact). -/
def exDocCr : Document := Document.openDoc "a.txt".toList "a\r".toList

/-- A concrete Rust-profile file whose first row opens a block comment that
the second row does not close. -/
def exRsContents : List Char := "/*\nx".toList

theorem getD_eq_get? (l : List α) (i : Nat) (d : α) : l.getD i d = (l.get? i).getD d := rfl

theorem set_getD_self (l : List α) (i : Nat) (d : α) : l.set i (l.getD i d) = l := by
  induction l generalizing i with
  | nil => rfl
  | cons a l ih =>
    cases i with
    | zero => rfl
    | succ n =>
      show a :: l.set n (l.getD n d) = a :: l
      rw [ih]

theorem getD_map (f : α → β) (l : List α) (i : Nat) (d : α) :
    (l.map f).getD i (f d) = f (l.getD i d) := by
  induction l generalizing i with
  | nil => rfl
  | cons a l ih =>
    cases i with
    | zero => rfl
    | succ n => exact ih n

theorem length_vecInsert (l : List α) (i : Nat) (a : α) (h : i ≤ l.length) :
    (vecInsert l i a).length = l.length + 1 := by
  simp only [vecInsert, List.length_append, List.length_take, List.length_cons,
    List.length_drop]
  omega

theorem get?_vecInsert_lt (l : List α) (i : Nat) (a : α) (j : Nat)
    (h : i ≤ l.length) (hj : j < i) : (vecInsert l i a).get? j = l.get? j := by
  induction l generalizing i j with
  | nil => simp at h; omega
  | cons b l ih =>
    cases i with
    | zero => omega
    | succ n =>
      show (b :: vecInsert l n a).get? j = (b :: l).get? j
      cases j with
      | zero => rfl
      | succ m => exact ih n m (by simpa using h) (by omega)

theorem get?_vecInsert_self (l : List α) (i : Nat) (a : α) (h : i ≤ l.length) :
    (vecInsert l i a).get? i = some a := by
  induction l generalizing i with
  | nil =>
    cases i with
    | zero => rfl
    | succ n => simp at h
  | cons b l ih =>
    cases i with
    | zero => rfl
    | succ n =>
      show (b :: vecInsert l n a).get? (n + 1) = some a
      exact ih n (by simpa using h)

theorem get?_vecInsert_gt (l : List α) (i : Nat) (a : α) (j : Nat)
    (h : i ≤ l.length) (hj : i < j) : (vecInsert l i a).get? j = l.get? (j - 1) := by
  induction l generalizing i j with
  | nil =>
    cases i with
    | zero =>
      cases j with
      | zero => omega
      | succ m =>
        show ([a] : List α).get? (m + 1) = ([] : List α).get? m
        cases m <;> rfl
    | succ n => simp at h
  | cons b l ih =>
    cases i with
    | zero =>
      cases j with
      | zero => omega
      | succ m =>
        show (b :: l).get? m = (b :: l).get? (m + 1 - 1)
        rfl
    | succ n =>
      cases j with
      | zero => omega
      | succ m =>
        show (b :: vecInsert l n a).get? (m + 1) = (b :: l).get? (m + 1 - 1)
        cases m with
        | zero => omega
        | succ m' =>
          have := ih n (m' + 1) (by simpa using h) (by omega)
          simpa using this

theorem vecRemove_vecInsert (l : List α) (i : Nat) (a : α) (h : i ≤ l.length) :
    vecRemove (vecInsert l i a) i = l := by
  induction l generalizing i with
  | nil =>
    cases i with
    | zero => rfl
    | succ n => simp at h
  | cons b l ih =>
    cases i with
    | zero => rfl
    | succ n =>
      show b :: vecRemove (vecInsert l n a) n = b :: l
      rw [ih n (by simpa using h)]

theorem Row.highlight_fst_content (r : Row) (o : HighlightingOptions)
    (w : Option (List Char)) (b : Bool) : ((r.highlight o w b).1).content = r.content := rfl

theorem Row.highlight_fst_len (r : Row) (o : HighlightingOptions)
    (w : Option (List Char)) (b : Bool) : ((r.highlight o w b).1).len = r.len := rfl

theorem Row.insert_content (r : Row) (i : Nat) (c : Char) :
    (r.insert i c).content = r.content.take i ++ c :: r.content.drop i := rfl

theorem Row.insert_len (r : Row) (i : Nat) (c : Char) :
    (r.insert i c).len = r.len + 1 := by
  simp only [Row.len, Row.insert, List.length_append, List.length_take,
    List.length_cons, List.length_drop]
  omega

theorem insertAt_then_deleteAt (cs : List Char) (i : Nat) (c : Char) (h : i ≤ cs.length) :
    (cs.take i ++ c :: cs.drop i).take i ++ (cs.take i ++ c :: cs.drop i).drop (i + 1) = cs := by
  induction cs generalizing i with
  | nil =>
    cases i with
    | zero => rfl
    | succ n => simp at h
  | cons a cs ih =>
    cases i with
    | zero => rfl
    | succ n =>
      show a :: ((cs.take n ++ c :: cs.drop n).take n ++ (cs.take n ++ c :: cs.drop n).drop (n + 1)) = a :: cs
      rw [ih n (by simpa using h)]

theorem Document.insert_newline_dirty (d : Document) (p : Position) :
    (d.insert_newline p).dirty = d.dirty := by
  unfold Document.insert_newline
  split
  · rfl
  · split <;> rfl

theorem Document.insert_dirty (d : Document) (p : Position) (c : Char) :
    (d.insert p c).dirty = (d.dirty || decide (p.y ≤ d.len)) := by
  by_cases h : p.y > d.len
  · have h2 : ¬ p.y ≤ d.len := by omega
    simp [Document.insert, if_pos h, h2]
  · have h2 : p.y ≤ d.len := by omega
    simp only [Document.insert, if_neg h]
    split
    · rw [Document.insert_newline_dirty]
      simp [h2]
    · split <;> simp [h2]

theorem Document.delete_dirty (d : Document) (p : Position) :
    (d.delete p).dirty = (d.dirty || decide (p.y < d.len)) := by
  by_cases h : p.y ≥ d.len
  · have h2 : ¬ p.y < d.len := by omega
    simp [Document.delete, if_pos h, h2]
  · have h2 : p.y < d.len := by omega
    simp only [Document.delete, if_neg h]
    split <;> simp [h2]

theorem Document.save_doc_dirty (d : Document) (k : Option Nat) :
    (d.save k).doc.dirty =
      if d.file_name.isSome ∧ (d.save k).result = .ok then false else d.dirty := by
  unfold Document.save
  cases hf : d.file_name with
  | none => simp
  | some fn =>
    by_cases h0 : k = some 0
    · simp [h0]
    · simp only [if_neg h0]
      cases hres : (saveLoop (FileType.ofName fn).highlighting_options k d.rows false 1).2.2 <;>
        simp [hres]

theorem splitOnNl_append (l t : List Char) (h : '\n' ∉ l) :
    splitOnNl (l ++ '\n' :: t) = l :: splitOnNl t := by
  induction l with
  | nil => simp [splitOnNl]
  | cons c l ih =>
    have hc : ¬ c = '\n' := fun e => h (by simp [e])
    have h2 : '\n' ∉ l := fun m => h (List.mem_cons_of_mem _ m)
    simp only [List.cons_append, splitOnNl, if_neg hc, List.append_eq, ih h2]

theorem splitOnNl_joinNl (ls : List (List Char)) (h : ∀ l ∈ ls, '\n' ∉ l) :
    splitOnNl (joinNl ls) = ls ++ [[]] := by
  induction ls with
  | nil => rfl
  | cons l ls ih =>
    have h1 : '\n' ∉ l := h l (by simp)
    have h2 : ∀ l2 ∈ ls, '\n' ∉ l2 := fun l2 m => h l2 (by simp [m])
    show splitOnNl (l ++ '\n' :: joinNl ls) = (l :: ls) ++ [[]]
    rw [splitOnNl_append l _ h1, ih h2]
    rfl

theorem stripCr_eq_self (l : List Char) (h : l.getLast? ≠ some '\r') :
    stripCr l = l := by
  unfold stripCr
  rw [if_neg h]

theorem linesOfSegs_concat_nil (ls : List (List Char))
    (h : ∀ l ∈ ls, l.getLast? ≠ some '\r') :
    linesOfSegs (ls ++ [[]]) = ls := by
  induction ls with
  | nil => rfl
  | cons l ls ih =>
    cases ls with
    | nil =>
      show stripCr l :: linesOfSegs [[]] = [l]
      rw [stripCr_eq_self l (h l (by simp))]
      rfl
    | cons l2 ls2 =>
      show stripCr l :: linesOfSegs ((l2 :: ls2) ++ [[]]) = l :: l2 :: ls2
      rw [stripCr_eq_self l (h l (by simp)),
        ih (fun x hx => h x (List.mem_cons_of_mem _ hx))]

theorem rustLines_joinNl (ls : List (List Char))
    (h : ∀ l ∈ ls, '\n' ∉ l ∧ l.getLast? ≠ some '\r') :
    rustLines (joinNl ls) = ls := by
  unfold rustLines
  rw [splitOnNl_joinNl ls (fun l hl => (h l hl).1)]
  exact linesOfSegs_concat_nil ls (fun l hl => (h l hl).2)

theorem saveLoop_no_failure (o : HighlightingOptions) (rows : List Row)
    (swc : Bool) (idx : Nat) :
    (saveLoop o none rows swc idx).2.1 = joinNl (rows.map Row.content)
    ∧ (saveLoop o none rows swc idx).2.2 = .ok := by
  induction rows generalizing swc idx with
  | nil => exact ⟨rfl, rfl⟩
  | cons r rs ih =>
    simp only [saveLoop, reduceCtorEq, if_false, List.map_cons, joinNl]
    exact ⟨by rw [(ih _ _).1], (ih _ _).2⟩

theorem openRows_eq_map (o : HighlightingOptions) (ls : List (List Char)) :
    openRows o ls = ls.map (fun l => ((Row.ofLine l).highlight o none false).1) := by
  induction ls with
  | nil => rfl
  | cons l ls ih => simp only [openRows, List.map_cons, ih]

theorem openDoc_rows_content (fn cs : List Char) :
    (Document.openDoc fn cs).rows.map Row.content = rustLines cs := by
  have h : ∀ l, ((Row.ofLine l).highlight
      (FileType.ofName fn).highlighting_options none false).1.content = l := fun _ => rfl
  simp only [Document.openDoc, openRows_eq_map, List.map_map]
  calc (rustLines cs).map _ = (rustLines cs).map id := List.map_congr_left (fun l _ => h l)
    _ = rustLines cs := List.map_id _

/-- C7: for every position whose row index is out of range (`y > len(rows)`
for insert, `y ≥ len(rows)` for delete), `Document::insert` and
`Document::delete` are silent no-ops: the entire document state, including
the dirty flag, is returned unchanged. -/
theorem out_of_range_mutations_are_noops (d : Document) (p : Position) (c : Char) :
    (p.y > d.len → d.insert p c = d) ∧ (p.y ≥ d.len → d.delete p = d) := by
  constructor
  · intro h
    simp [Document.insert, if_pos h]
  · intro h
    simp [Document.delete, if_pos h]

/-- Witness for C7 at a concrete document: insert at row 5 and delete at row
3 of a one-row document leave it untouched. -/
theorem out_of_range_mutations_are_noops_witness :
    exDocA.insert ⟨0, 5⟩ 'q' = exDocA ∧ exDocA.delete ⟨0, 3⟩ = exDocA :=
  ⟨(out_of_range_mutations_are_noops exDocA ⟨0, 5⟩ 'q').1 (by decide),
   (out_of_range_mutations_are_noops exDocA ⟨0, 3⟩ 'q').2 (by decide)⟩

/-- C1 counterexample: opening a Rust file whose first row opens a block
comment that the second row does not close.  `Document::open` highlights the
second row with continuation flag false (tag `normal`), whereas the claimed
row-to-row propagation (`Document.openPropagating`, the spec section 4.3
reading) would classify it as a multi-line comment. -/
theorem open_propagation_counterexample :
    ((Document.openDoc "a.rs".toList exRsContents).rows.getD 1 Row.default).hl
        = [Highlight.normal]
    ∧ ((Document.openPropagating "a.rs".toList exRsContents).rows.getD 1 Row.default).hl
        = [Highlight.mlComment]
    ∧ Document.openDoc "a.rs".toList exRsContents
        ≠ Document.openPropagating "a.rs".toList exRsContents := by
  refine ⟨by decide, by decide, by decide⟩

/-- C1 (amended): `Document::open` builds one Row per line of the file and
runs the highlighter over every row with continuation flag false — the
multi-line-comment continuation state is not propagated from row to row at
open time. -/
theorem open_builds_rows_without_propagation (fn cs : List Char) :
    Document.openDoc fn cs = Document.openRowLocal fn cs
    ∧ (Document.openDoc fn cs).len = (rustLines cs).length := by
  constructor
  · simp only [Document.openDoc, Document.openRowLocal, openRows_eq_map]
  · simp only [Document.len, Document.openDoc, openRows_eq_map, List.length_map]

theorem applyOp_dirty (d : Document) (op : Op) :
    (applyOp d op).dirty =
      if opClearsDirty d op then false else d.dirty || opSetsDirty d op := by
  cases op with
  | ins p c =>
    simp only [applyOp, opClearsDirty, opSetsDirty, if_false, Bool.false_eq_true,
      Document.insert_dirty]
  | del p =>
    simp only [applyOp, opClearsDirty, opSetsDirty, if_false, Bool.false_eq_true,
      Document.delete_dirty]
  | saveOp k =>
    simp only [applyOp, opClearsDirty, opSetsDirty, Bool.or_false,
      Document.save_doc_dirty]
    by_cases h1 : d.file_name.isSome
    · by_cases h2 : (d.save k).result = .ok <;> simp [h1, h2]
    · simp [h1]

/-- C2 counterexample: on the one-row document `a`, `delete` at column 1
(the end of the last row, with no row following) changes nothing — the row
sequence is exactly the one produced by `open` — yet the dirty flag flips
from false to true, so `is_dirty` is not equivalent to "a content mutation
happened since the last save". -/
theorem dirty_set_without_content_mutation :
    (exDocA.delete ⟨1, 0⟩).rows = exDocA.rows
    ∧ exDocA.is_dirty = false
    ∧ (exDocA.delete ⟨1, 0⟩).is_dirty = true := by
  refine ⟨by decide, by decide, by decide⟩

/-- C2 (amended): for every sequence of Document operations, `is_dirty()` is
true iff some insert with row index `≤ len(rows)` or delete with row index
`< len(rows)` happened since the last successful save with a file name set
(counting from the initial flag) — such in-range calls set the flag even
when they change nothing.  Stated as: the dirty flag along any operation
sequence equals the ledger recomputed from the in-range-mutation and
clearing-save conditions alone. -/
theorem dirty_tracks_in_range_calls (d : Document) (ops : List Op) :
    (applyOps d ops).is_dirty = dirtyLedger d d.dirty ops := by
  induction ops generalizing d with
  | nil => rfl
  | cons op rest ih =>
    show (applyOps (applyOp d op) rest).is_dirty
      = dirtyLedger (applyOp d op)
          (if opClearsDirty d op then false else d.dirty || opSetsDirty d op) rest
    rw [ih (applyOp d op)]
    rw [show (applyOp d op).dirty
      = if opClearsDirty d op then false else d.dirty || opSetsDirty d op
      from applyOp_dirty d op]

/-- C8: dirty lifecycle — a fresh open yields `is_dirty() == false`; any
single in-range insert or delete sets it true; with no file name set `save`
returns Ok without writing and changes nothing; with a file name set, `save`
clears the dirty flag to false exactly when it succeeds, and on a write
failure it returns the IoError and leaves the dirty flag as it was (state
not rolled back). -/
theorem dirty_lifecycle :
    (∀ fn cs : List Char, (Document.openDoc fn cs).is_dirty = false)
    ∧ (∀ (d : Document) (p : Position) (c : Char),
        p.y ≤ d.len → (d.insert p c).is_dirty = true)
    ∧ (∀ (d : Document) (p : Position),
        p.y < d.len → (d.delete p).is_dirty = true)
    ∧ (∀ (d : Document) (k : Option Nat),
        d.file_name = none → d.save k = ⟨d, none, .ok⟩)
    ∧ (∀ (d : Document) (k : Option Nat) (fn : List Char),
        d.file_name = some fn →
          ((d.save k).result = .ok → (d.save k).doc.dirty = false)
          ∧ ((d.save k).result = .ioError → (d.save k).doc.dirty = d.dirty)) := by
  refine ⟨fun _ _ => rfl, ?_, ?_, ?_, ?_⟩
  · intro d p c h
    show (d.insert p c).dirty = true
    rw [Document.insert_dirty]
    simp [h]
  · intro d p h
    show (d.delete p).dirty = true
    rw [Document.delete_dirty]
    simp [h]
  · intro d k h
    unfold Document.save
    rw [h]
  · intro d k fn h
    have hdirty := Document.save_doc_dirty d k
    rw [h] at hdirty
    constructor
    · intro hok
      rw [hdirty]
      simp [hok]
    · intro herr
      rw [hdirty]
      simp [herr]

/-- Witness for C8 at concrete inputs: a fresh one-row open is clean, an
in-range insert marks it dirty, a successful save of the result is clean
again, and a save whose very first write fails leaves the flag set. -/
theorem dirty_lifecycle_witness :
    (Document.openDoc "a.txt".toList "a".toList).is_dirty = false
    ∧ (exDocA.insert ⟨0, 0⟩ 'q').is_dirty = true
    ∧ ((exDocA.insert ⟨0, 0⟩ 'q').save none).doc.dirty = false
    ∧ ((exDocA.insert ⟨0, 0⟩ 'q').save (some 1)).doc.dirty = (exDocA.insert ⟨0, 0⟩ 'q').dirty :=
  ⟨dirty_lifecycle.1 _ _,
   dirty_lifecycle.2.1 exDocA ⟨0, 0⟩ 'q' (by decide),
   (dirty_lifecycle.2.2.2.2 (exDocA.insert ⟨0, 0⟩ 'q') none "a.txt".toList (by decide)).1
     (by decide),
   (dirty_lifecycle.2.2.2.2 (exDocA.insert ⟨0, 0⟩ 'q') (some 1) "a.txt".toList (by decide)).2
     (by decide)⟩

/-- C3 counterexample: the document with the single row `a\r` (non-empty and
newline-free, so it satisfies the claim's hypotheses; reachable by opening a
file holding `a\r` with no trailing newline).  `save` writes the characters
`a`, `\r`, `\n`, and re-opening those written characters yields the row `a`
— Rust `str::lines` treats `\r\n` as one line terminator — so the
round-trip does not restore the original row sequence. -/
theorem roundtrip_carriage_return_counterexample :
    (∀ r ∈ exDocCr.rows, r.content ≠ [] ∧ '\n' ∉ r.content)
    ∧ exDocCr.file_name = some "a.txt".toList
    ∧ exDocCr.rows.map Row.content = ["a\r".toList]
    ∧ (exDocCr.save none).written = some "a\r\n".toList
    ∧ (Document.openDoc "a.txt".toList
        ((exDocCr.save none).written.getD [])).rows.map Row.content
      ≠ exDocCr.rows.map Row.content := by
  refine ⟨by decide, by decide, by decide, by decide, by decide⟩

/-- C3 (amended): round-trip — for a document of newline-free, non-empty rows
none of which ends in a carriage return, with a file name set, `save` writes
every row's text followed by one newline, and `open` on exactly those
written characters yields a document whose row sequence (row contents, in
order) equals the original rows'. -/
theorem save_then_open_roundtrip (d : Document) (fn : List Char)
    (hf : d.file_name = some fn)
    (hrows : ∀ r ∈ d.rows,
      r.content ≠ [] ∧ '\n' ∉ r.content ∧ r.content.getLast? ≠ some '\r') :
    (d.save none).written = some (joinNl (d.rows.map Row.content))
    ∧ (Document.openDoc fn (joinNl (d.rows.map Row.content))).rows.map Row.content
        = d.rows.map Row.content := by
  constructor
  · unfold Document.save
    rw [hf]
    simp only [reduceCtorEq, if_false]
    rw [(saveLoop_no_failure _ d.rows false 1).1]
  · rw [openDoc_rows_content, rustLines_joinNl]
    intro l hl
    obtain ⟨r, hr, rfl⟩ := List.mem_map.mp hl
    refine ⟨(hrows r hr).2.1, ?_⟩
    rw [show Row.content r = r.content from rfl]
    exact (hrows r hr).2.2

/-- Witness for C3 (amended) at a concrete two-row document: saving writes
`ab\ncd\n` and re-opening it reproduces the rows `ab`, `cd`. -/
theorem save_then_open_roundtrip_witness :
    (exDocAbCd.save none).written = some (joinNl (exDocAbCd.rows.map Row.content))
    ∧ (Document.openDoc "a.txt".toList
        (joinNl (exDocAbCd.rows.map Row.content))).rows.map Row.content
      = exDocAbCd.rows.map Row.content :=
  save_then_open_roundtrip exDocAbCd "a.txt".toList (by decide) (by decide)

theorem getD_set_self (l : List α) (i : Nat) (v d : α) (h : i < l.length) :
    (l.set i v).getD i d = v := by
  induction l generalizing i with
  | nil => simp at h
  | cons a l ih =>
    cases i with
    | zero => rfl
    | succ n => exact ih n (by simpa using h)

theorem Document.insert_rows_of_mid (d : Document) (p : Position) (c : Char)
    (hc : ¬ c = '\n') (h1 : p.y < d.len) :
    (d.insert p c).rows = d.rows.set p.y
      (((d.rows.getD p.y Row.default).insert p.x c).highlight
        d.file_type.highlighting_options none false).1 := by
  have hnot : ¬ p.y > d.len := by omega
  have hne : ¬ p.y = d.rows.length := Nat.ne_of_lt h1
  unfold Document.insert
  rw [if_neg hnot]
  simp only [Document.len]
  rw [if_neg hc, if_neg hne]

theorem Document.delete_rows_of_nomerge (d : Document) (p : Position)
    (h1 : p.y < d.len)
    (h2 : ¬ (p.x = (d.rows.getD p.y Row.default).len ∧ p.y + 1 < d.len)) :
    (d.delete p).rows = d.rows.set p.y
      (((d.rows.getD p.y Row.default).delete p.x).highlight
        d.file_type.highlighting_options none false).1 := by
  have hnot : ¬ p.y ≥ d.len := by omega
  have h2b : ¬ (p.x = (d.rows.getD p.y Row.default).len ∧ p.y + 1 < d.rows.length) := h2
  unfold Document.delete
  rw [if_neg hnot]
  simp only [Document.len]
  rw [if_neg h2b]

theorem Document.delete_rows_of_merge (d : Document) (p : Position)
    (h1 : p.y < d.len)
    (h2 : p.x = (d.rows.getD p.y Row.default).len ∧ p.y + 1 < d.len) :
    (d.delete p).rows = (vecRemove d.rows (p.y + 1)).set p.y
      (((d.rows.getD p.y Row.default).append (d.rows.getD (p.y + 1) Row.default)).highlight
        d.file_type.highlighting_options none false).1 := by
  have hnot : ¬ p.y ≥ d.len := by omega
  have h2b : p.x = (d.rows.getD p.y Row.default).len ∧ p.y + 1 < d.rows.length := h2
  unfold Document.delete
  rw [if_neg hnot]
  simp only [Document.len]
  rw [if_pos h2b]

/-- C4 counterexample: by the spec's validity definition (section 3), the
position `(0, len(rows))` is valid (it denotes "append a new row").  On the
empty document, `insert((0,0), 'x')` appends a one-character row and the
following `delete((0,0))` deletes inside that row instead of removing it, so
the prior row count 0 is not restored: the claim fails at a valid position. -/
theorem insert_delete_inverse_counterexample :
    (⟨0, 0⟩ : Position).y ≤ exDocEmpty.len
    ∧ exDocEmpty.len = 0
    ∧ ((exDocEmpty.insert ⟨0, 0⟩ 'x').delete ⟨0, 0⟩).len = 1 := by
  refine ⟨by decide, by decide, by decide⟩

/-- C4 (amended): for every position addressing an existing row
(`pos.y < len(rows)` and `pos.x ≤ rows[pos.y].len`), `insert(pos, c)` with a
non-newline character immediately followed by `delete(pos)` restores the
exact prior row contents and the prior row count. -/
theorem insert_then_delete_restores (d : Document) (p : Position) (c : Char)
    (hc : c ≠ '\n') (hy : p.y < d.len)
    (hx : p.x ≤ (d.rows.getD p.y Row.default).len) :
    ((d.insert p c).delete p).rows.map Row.content = d.rows.map Row.content
    ∧ ((d.insert p c).delete p).len = d.len := by
  set r := d.rows.getD p.y Row.default with hrdef
  set rins := ((r.insert p.x c).highlight d.file_type.highlighting_options none false).1
    with hinsdef
  have hrows1 : (d.insert p c).rows = d.rows.set p.y rins :=
    Document.insert_rows_of_mid d p c hc hy
  have hlen1 : (d.insert p c).len = d.len := by
    show (d.insert p c).rows.length = d.rows.length
    rw [hrows1, List.length_set]
  have hy1 : p.y < (d.insert p c).len := by omega
  have hrowat : (d.insert p c).rows.getD p.y Row.default = rins := by
    rw [hrows1]
    exact getD_set_self d.rows p.y rins Row.default hy
  have hrinslen : rins.len = r.len + 1 := by
    rw [hinsdef, Row.highlight_fst_len, Row.insert_len]
  have hcond : ¬ (p.x = ((d.insert p c).rows.getD p.y Row.default).len
      ∧ p.y + 1 < (d.insert p c).len) := by
    intro h
    rw [hrowat, hrinslen] at h
    omega
  have hrows2 := Document.delete_rows_of_nomerge (d.insert p c) p hy1 hcond
  rw [hrowat, hrows1, List.set_set] at hrows2
  have hdelcontent : (rins.delete p.x).content = r.content := by
    unfold Row.delete
    rw [if_neg (by omega : ¬ rins.len ≤ p.x)]
    show rins.content.take p.x ++ rins.content.drop (p.x + 1) = r.content
    have hrinsc : rins.content = r.content.take p.x ++ c :: r.content.drop p.x := by
      rw [hinsdef, Row.highlight_fst_content, Row.insert_content]
    rw [hrinsc]
    exact insertAt_then_deleteAt r.content p.x c hx
  constructor
  · rw [hrows2, List.map_set, Row.highlight_fst_content, hdelcontent]
    rw [show r.content = (d.rows.map Row.content).getD p.y Row.default.content from
      (getD_map Row.content d.rows p.y Row.default).symm]
    exact set_getD_self (d.rows.map Row.content) p.y Row.default.content
  · show ((d.insert p c).delete p).rows.length = d.rows.length
    rw [hrows2, List.length_set]

/-- Witness for C4 (amended) at a concrete document: inserting `z` at
column 1 of row `ab` and deleting it again restores the rows `ab`, `cd`. -/
theorem insert_then_delete_restores_witness :
    ((exDocAbCd.insert ⟨1, 0⟩ 'z').delete ⟨1, 0⟩).rows.map Row.content
      = exDocAbCd.rows.map Row.content
    ∧ ((exDocAbCd.insert ⟨1, 0⟩ 'z').delete ⟨1, 0⟩).len = exDocAbCd.len :=
  insert_then_delete_restores exDocAbCd ⟨1, 0⟩ 'z' (by decide) (by decide) (by decide)

theorem Document.insert_newline_rows_of_mid (d : Document) (p : Position)
    (h1 : p.y < d.len) :
    (d.insert p '\n').rows =
      vecInsert
        (d.rows.set p.y
          ((((d.rows.getD p.y Row.default).split p.x).1.highlight
            d.file_type.highlighting_options none false).1))
        (p.y + 1)
        ((((d.rows.getD p.y Row.default).split p.x).2.highlight
          d.file_type.highlighting_options none false).1) := by
  have hnot : ¬ p.y > d.len := by omega
  have hnot2 : ¬ p.y > d.rows.length := hnot
  have hne : ¬ p.y = d.rows.length := Nat.ne_of_lt h1
  unfold Document.insert
  rw [if_neg hnot, if_pos rfl]
  unfold Document.insert_newline
  simp only [Document.len]
  rw [if_neg hnot2, if_neg hne]

/-- C5 counterexample: by the spec's validity definition (section 3), the
position `(0, len(rows))` is valid.  On the empty document,
`insert((0,0), '\n')` appends an empty row, and the following
`delete((0,0))` has no next row to merge, so the prior row count 0 is not
restored: the claim fails at a valid position. -/
theorem newline_split_inverse_counterexample :
    (⟨0, 0⟩ : Position).y ≤ exDocEmpty.len
    ∧ exDocEmpty.len = 0
    ∧ ((exDocEmpty.insert ⟨0, 0⟩ '\n').delete ⟨0, 0⟩).len = 1 := by
  refine ⟨by decide, by decide, by decide⟩

/-- C5 (amended): for every position addressing an existing row
(`pos.y < len(rows)` and `pos.x ≤ rows[pos.y].len`), `insert(pos, '\n')`
(which splits the row at pos) followed by `delete(pos)` (which merges the
next row back) restores the original row contents and the original row
count. -/
theorem newline_split_then_delete_restores (d : Document) (p : Position)
    (hy : p.y < d.len) (hx : p.x ≤ (d.rows.getD p.y Row.default).len) :
    ((d.insert p '\n').delete p).rows.map Row.content = d.rows.map Row.content
    ∧ ((d.insert p '\n').delete p).len = d.len := by
  set r := d.rows.getD p.y Row.default with hrdef
  set curH := ((r.split p.x).1.highlight d.file_type.highlighting_options none false).1
    with hcurdef
  set newH := ((r.split p.x).2.highlight d.file_type.highlighting_options none false).1
    with hnewdef
  have hx2 : p.x ≤ r.content.length := hx
  have hlen0 : d.len = d.rows.length := rfl
  have hrows1 : (d.insert p '\n').rows = vecInsert (d.rows.set p.y curH) (p.y + 1) newH :=
    Document.insert_newline_rows_of_mid d p hy
  have hsetlen : (d.rows.set p.y curH).length = d.rows.length := List.length_set _ _ _
  have hle : p.y + 1 ≤ (d.rows.set p.y curH).length := by
    rw [hsetlen]
    omega
  have hlen1 : (d.insert p '\n').len = d.len + 1 := by
    show (d.insert p '\n').rows.length = d.rows.length + 1
    rw [hrows1, length_vecInsert _ _ _ hle, hsetlen]
  have hy1 : p.y < (d.insert p '\n').len := by omega
  have hrowat : (d.insert p '\n').rows.getD p.y Row.default = curH := by
    rw [hrows1, getD_eq_get?, get?_vecInsert_lt _ _ _ _ hle (by omega), ← getD_eq_get?]
    exact getD_set_self d.rows p.y curH Row.default hy
  have hcurlen : curH.len = p.x := by
    rw [hcurdef, Row.highlight_fst_len]
    show (r.content.take p.x).length = p.x
    rw [List.length_take]
    exact Nat.min_eq_left hx2
  have hcond : p.x = ((d.insert p '\n').rows.getD p.y Row.default).len
      ∧ p.y + 1 < (d.insert p '\n').len := by
    constructor
    · rw [hrowat, hcurlen]
    · omega
  have hrows2 := Document.delete_rows_of_merge (d.insert p '\n') p hy1 hcond
  have hnext : (d.insert p '\n').rows.getD (p.y + 1) Row.default = newH := by
    rw [hrows1, getD_eq_get?, get?_vecInsert_self _ _ _ hle]
    rfl
  have hrem : vecRemove (d.insert p '\n').rows (p.y + 1) = d.rows.set p.y curH := by
    rw [hrows1]
    exact vecRemove_vecInsert _ _ _ hle
  rw [hrowat, hnext, hrem, List.set_set] at hrows2
  have hZc : (((curH.append newH).highlight
      (d.insert p '\n').file_type.highlighting_options none false).1).content = r.content := by
    rw [Row.highlight_fst_content]
    show curH.content ++ newH.content = r.content
    rw [hcurdef, hnewdef, Row.highlight_fst_content, Row.highlight_fst_content]
    exact List.take_append_drop p.x r.content
  constructor
  · rw [hrows2, List.map_set, hZc]
    rw [show r.content = (d.rows.map Row.content).getD p.y Row.default.content from
      (getD_map Row.content d.rows p.y Row.default).symm]
    exact set_getD_self (d.rows.map Row.content) p.y Row.default.content
  · show ((d.insert p '\n').delete p).rows.length = d.rows.length
    rw [hrows2, List.length_set]

/-- Witness for C5 (amended) at a concrete document: splitting row `ab` at
column 1 and deleting at the same position restores the rows `ab`, `cd`. -/
theorem newline_split_then_delete_restores_witness :
    ((exDocAbCd.insert ⟨1, 0⟩ '\n').delete ⟨1, 0⟩).rows.map Row.content
      = exDocAbCd.rows.map Row.content
    ∧ ((exDocAbCd.insert ⟨1, 0⟩ '\n').delete ⟨1, 0⟩).len = exDocAbCd.len :=
  newline_split_then_delete_restores exDocAbCd ⟨1, 0⟩ (by decide) (by decide)

theorem Document.insert_newline_rows_of_append (d : Document) (p : Position)
    (h1 : p.y = d.len) :
    (d.insert p '\n').rows = d.rows ++ [Row.default] := by
  have hnot : ¬ p.y > d.len := by omega
  have hnot2 : ¬ p.y > d.rows.length := hnot
  have h1b : p.y = d.rows.length := h1
  unfold Document.insert
  rw [if_neg hnot, if_pos rfl]
  unfold Document.insert_newline
  simp only [Document.len]
  rw [if_neg (by omega : ¬ p.y > d.rows.length), if_pos h1b]

/-- C10: for every position with `pos.y ≤ len(rows)`, `insert(pos, '\n')`
increases the row count by exactly one; every row with index strictly below
`pos.y` is unchanged, every row with index strictly above `pos.y + 1` holds
the row previously at index `i - 1` (the edit is local to the split pair),
and when `pos.y = len(rows)` a single empty row is appended. -/
theorem insert_newline_frame (d : Document) (p : Position) (hy : p.y ≤ d.len) :
    (d.insert p '\n').len = d.len + 1
    ∧ (∀ i, i < p.y → (d.insert p '\n').rows.get? i = d.rows.get? i)
    ∧ (∀ i, p.y + 1 < i → (d.insert p '\n').rows.get? i = d.rows.get? (i - 1))
    ∧ (p.y = d.len → (d.insert p '\n').rows = d.rows ++ [Row.default]) := by
  have hlen0 : d.len = d.rows.length := rfl
  rcases eq_or_lt_of_le hy with heq | hlt
  · have hrows := Document.insert_newline_rows_of_append d p heq
    refine ⟨?_, ?_, ?_, fun _ => hrows⟩
    · show (d.insert p '\n').rows.length = d.rows.length + 1
      rw [hrows]
      simp
    · intro i hi
      rw [hrows]
      exact List.get?_append (by omega)
    · intro i hi
      rw [hrows]
      rw [List.get?_eq_none.mpr (by simp; omega), List.get?_eq_none.mpr (by omega)]
  · set curH := (((d.rows.getD p.y Row.default).split p.x).1.highlight
      d.file_type.highlighting_options none false).1 with hcurdef
    set newH := (((d.rows.getD p.y Row.default).split p.x).2.highlight
      d.file_type.highlighting_options none false).1 with hnewdef
    have hrows1 : (d.insert p '\n').rows = vecInsert (d.rows.set p.y curH) (p.y + 1) newH :=
      Document.insert_newline_rows_of_mid d p hlt
    have hsetlen : (d.rows.set p.y curH).length = d.rows.length := List.length_set _ _ _
    have hle : p.y + 1 ≤ (d.rows.set p.y curH).length := by
      rw [hsetlen]
      omega
    refine ⟨?_, ?_, ?_, ?_⟩
    · show (d.insert p '\n').rows.length = d.rows.length + 1
      rw [hrows1, length_vecInsert _ _ _ hle, hsetlen]
    · intro i hi
      rw [hrows1, get?_vecInsert_lt _ _ _ _ hle (by omega)]
      exact List.get?_set_ne _ _ (by omega)
    · intro i hi
      rw [hrows1, get?_vecInsert_gt _ _ _ _ hle (by omega)]
      exact List.get?_set_ne _ _ (by omega)
    · intro h
      omega

/-- Witness for C10 at a concrete document: splitting row 0 of the two-row
document `ab`, `cd` at column 1 yields three rows, and row 2 of the result
is the old row 1. -/
theorem insert_newline_frame_witness :
    (exDocAbCd.insert ⟨1, 0⟩ '\n').len = exDocAbCd.len + 1
    ∧ (exDocAbCd.insert ⟨1, 0⟩ '\n').rows.get? 2 = exDocAbCd.rows.get? 1 :=
  ⟨(insert_newline_frame exDocAbCd ⟨1, 0⟩ (by decide)).1,
   (insert_newline_frame exDocAbCd ⟨1, 0⟩ (by decide)).2.2.1 2 (by decide)⟩

theorem findLoop_zero (rows : List Row) (q : List Char) (dir : SearchDirection)
    (x y : Nat) : findLoop rows q dir 0 x y = none := rfl

theorem findLoop_succ (rows : List Row) (q : List Char) (dir : SearchDirection)
    (fuel x y : Nat) :
    findLoop rows q dir (fuel + 1) x y =
      match rows.get? y with
      | none => none
      | some row =>
        match row.find q x dir with
        | some mx => some ⟨mx, y⟩
        | none =>
          match dir with
          | .Forward => findLoop rows q dir fuel 0 (y + 1)
          | .Backward =>
            findLoop rows q dir fuel (((rows.get? (y - 1)).map Row.len).getD 0) (y - 1) := rfl

theorem findLoop_some_bounds (rows : List Row) (q : List Char) (dir : SearchDirection) :
    ∀ (fuel x y : Nat) (pos : Position),
      findLoop rows q dir fuel x y = some pos →
      pos.y < rows.length
      ∧ (dir = .Forward → y ≤ pos.y)
      ∧ (dir = .Backward → pos.y ≤ y) := by
  intro fuel
  induction fuel with
  | zero =>
    intro x y pos h
    exact absurd h (by simp [findLoop_zero])
  | succ fuel ih =>
    intro x y pos h
    rw [findLoop_succ] at h
    split at h
    · exact absurd h (by simp)
    · next row hrow =>
      split at h
      · next mx hfind =>
        have hpos : (⟨mx, y⟩ : Position) = pos := Option.some.inj h
        have hlt : y < rows.length := by
          by_contra hge
          rw [List.get?_eq_none.mpr (by omega)] at hrow
          cases hrow
        refine ⟨?_, ?_, ?_⟩
        · rw [← hpos]
          exact hlt
        · intro _
          rw [← hpos]
        · intro _
          rw [← hpos]
      · next hfind =>
        split at h
        · obtain ⟨h1, h2, _⟩ := ih 0 (y + 1) pos h
          refine ⟨h1, fun _ => ?_, fun hd => absurd hd (by decide)⟩
          have := h2 rfl
          omega
        · obtain ⟨h1, _, h3⟩ := ih (((rows.get? (y - 1)).map Row.len).getD 0) (y - 1) pos h
          refine ⟨h1, fun hd => absurd hd (by decide), fun _ => ?_⟩
          have := h3 rfl
          omega

/-- C9: whenever `Document::find` returns a position, that position addresses
an existing row (`pos.y < len(rows)`), a Forward search never returns a row
before the start row, and a Backward search never one after it. -/
theorem find_some_in_range (d : Document) (q : List Char) (p : Position)
    (dir : SearchDirection) (pos : Position) (h : d.find q p dir = some pos) :
    pos.y < d.len
    ∧ (dir = .Forward → p.y ≤ pos.y)
    ∧ (dir = .Backward → pos.y ≤ p.y) := by
  unfold Document.find at h
  split at h
  · cases h
  · exact findLoop_some_bounds d.rows q dir _ p.x p.y pos h

/-- Witness for C9 at a concrete document: searching `cd` forward from the
origin of the two-row document `ab`, `cd` returns row 1, which is in range
and not before the start row. -/
theorem find_some_in_range_witness :
    (⟨0, 1⟩ : Position).y < exDocAbCd.len
    ∧ (SearchDirection.Forward = .Forward → (0 : Nat) ≤ (⟨0, 1⟩ : Position).y)
    ∧ (SearchDirection.Forward = .Backward → (⟨0, 1⟩ : Position).y ≤ (0 : Nat)) :=
  find_some_in_range exDocAbCd "cd".toList ⟨0, 0⟩ .Forward ⟨0, 1⟩ (by decide)

theorem findLoop_fwd_none_iff (rows : List Row) (q : List Char) :
    ∀ (fuel x y : Nat), fuel = rows.length - y →
      (findLoop rows q .Forward fuel x y = none ↔
        ∀ j, y ≤ j → j < rows.length →
          (rows.getD j Row.default).find q (if j = y then x else 0) .Forward = none) := by
  intro fuel
  induction fuel with
  | zero =>
    intro x y hf
    constructor
    · intro _ j h1 h2
      exact absurd h2 (by omega)
    · intro _
      rfl
  | succ fuel ih =>
    intro x y hf
    have hy : y < rows.length := by omega
    cases hrow : rows.get? y with
    | none => exact absurd (List.get?_eq_none.mp hrow) (by omega)
    | some row =>
      have hgd : rows.getD y Row.default = row := by
        rw [getD_eq_get?, hrow]
        rfl
      rw [findLoop_succ]
      simp only [hrow]
      cases hfind : row.find q x .Forward with
      | some mx =>
        simp only [hfind]
        constructor
        · intro habs
          exact absurd habs (by simp)
        · intro hall
          have hcontra := hall y (le_refl y) hy
          rw [if_pos rfl, hgd, hfind] at hcontra
          exact absurd hcontra (by simp)
      | none =>
        simp only [hfind]
        rw [ih 0 (y + 1) (by omega)]
        constructor
        · intro hall j h1 h2
          rcases Nat.eq_or_lt_of_le h1 with he | hl
          · rw [if_pos he.symm, ← he, hgd]
            exact hfind
          · have hthis := hall j (by omega) h2
            rw [ite_self] at hthis
            rw [if_neg (by omega : ¬ j = y)]
            exact hthis
        · intro hall j h1 h2
          have hthis := hall j (by omega) h2
          rw [if_neg (by omega : ¬ j = y)] at hthis
          rw [ite_self]
          exact hthis

theorem findLoop_bwd_none_iff (rows : List Row) (q : List Char) :
    ∀ (y x : Nat), y < rows.length →
      (findLoop rows q .Backward (y + 1) x y = none ↔
        ∀ j, j ≤ y →
          (rows.getD j Row.default).find q
            (if j = y then x else (rows.getD j Row.default).len) .Backward = none) := by
  intro y
  induction y with
  | zero =>
    intro x h0
    cases hrow : rows.get? 0 with
    | none => exact absurd (List.get?_eq_none.mp hrow) (by omega)
    | some row =>
      have hgd : rows.getD 0 Row.default = row := by
        rw [getD_eq_get?, hrow]
        rfl
      rw [findLoop_succ]
      simp only [hrow]
      cases hfind : row.find q x .Backward with
      | some mx =>
        simp only [hfind]
        constructor
        · intro habs
          exact absurd habs (by simp)
        · intro hall
          have hcontra := hall 0 (le_refl 0)
          rw [if_pos rfl, hgd, hfind] at hcontra
          exact absurd hcontra (by simp)
      | none =>
        simp only [hfind]
        rw [findLoop_zero]
        constructor
        · intro _ j hj
          have hj0 : j = 0 := Nat.le_zero.mp hj
          subst hj0
          rw [if_pos rfl, hgd]
          exact hfind
        · intro _
          rfl
  | succ y ih =>
    intro x hy1
    have hy : y < rows.length := by omega
    cases hrow : rows.get? (y + 1) with
    | none => exact absurd (List.get?_eq_none.mp hrow) (by omega)
    | some row =>
      have hgd : rows.getD (y + 1) Row.default = row := by
        rw [getD_eq_get?, hrow]
        rfl
      rw [findLoop_succ]
      simp only [hrow]
      cases hfind : row.find q x .Backward with
      | some mx =>
        simp only [hfind]
        constructor
        · intro habs
          exact absurd habs (by simp)
        · intro hall
          have hcontra := hall (y + 1) (le_refl _)
          rw [if_pos rfl, hgd, hfind] at hcontra
          exact absurd hcontra (by simp)
      | none =>
        simp only [hfind, Nat.add_sub_cancel]
        have hx2 : ((rows.get? y).map Row.len).getD 0 = (rows.getD y Row.default).len := by
          cases hr2 : rows.get? y with
          | none => exact absurd (List.get?_eq_none.mp hr2) (by omega)
          | some r2 =>
            rw [getD_eq_get?, hr2]
            rfl
        rw [hx2, ih ((rows.getD y Row.default).len) hy]
        have hcollapse : ∀ j,
            (if j = y then (rows.getD y Row.default).len else (rows.getD j Row.default).len)
              = (rows.getD j Row.default).len := by
          intro j
          by_cases hjy : j = y
          · rw [if_pos hjy, hjy]
          · rw [if_neg hjy]
        constructor
        · intro hall j hj
          rcases Nat.eq_or_lt_of_le hj with he | hl
          · rw [if_pos he, he, hgd]
            exact hfind
          · have hthis := hall j (by omega)
            rw [hcollapse j] at hthis
            rw [if_neg (by omega : ¬ j = y + 1)]
            exact hthis
        · intro hall j hj
          rw [hcollapse j]
          have hthis := hall j (by omega)
          rw [if_neg (by omega : ¬ j = y + 1)] at hthis
          exact hthis

/-- C6: `Document::find` returns none exactly when the start row index is out
of range or no match exists in the scanned span — Forward scans rows `from.y`
(from column `from.x`) through the last row (later rows from column 0);
Backward scans rows `from.y` (from column `from.x`) down to row 0 (earlier
rows from their last column). -/
theorem find_none_iff (d : Document) (q : List Char) (p : Position)
    (dir : SearchDirection) :
    d.find q p dir = none ↔
      (d.len ≤ p.y ∨ ∀ j, scanSpan dir p.y d.len j →
        (d.rows.getD j Row.default).find q (startColumn dir p d.rows j) dir = none) := by
  have hlen0 : d.len = d.rows.length := rfl
  unfold Document.find
  by_cases hy : p.y ≥ d.len
  · rw [if_pos hy]
    exact iff_of_true rfl (Or.inl hy)
  · rw [if_neg hy]
    have hylt : p.y < d.rows.length := by omega
    cases dir with
    | Forward =>
      show findLoop d.rows q .Forward (d.len - p.y) p.x p.y = none ↔ _
      rw [findLoop_fwd_none_iff d.rows q (d.len - p.y) p.x p.y (by omega)]
      rw [or_iff_right hy]
      constructor
      · intro h j hj
        exact h j hj.1 hj.2
      · intro h j h1 h2
        exact h j ⟨h1, h2⟩
    | Backward =>
      show findLoop d.rows q .Backward (p.y + 1) p.x p.y = none ↔ _
      rw [findLoop_bwd_none_iff d.rows q p.y p.x hylt]
      rw [or_iff_right hy]
      exact Iff.rfl
